import Mathlib

/-!
# sitemapper: a verification development

A shallow embedding of `main.go` (the site-map crawler) and theorems about it.

Go strings are modelled by Lean `String`s (sequences of Unicode characters, that is,
Go strings holding valid UTF-8).  The standard-library functions the program calls
(`strings.Replace`, `fmt.Sprintf` with `%s`, `regexp.FindAllStringSubmatch` for the one
pattern the program compiles, `http.Get`) are modelled after their documented behaviour.
Channels are modelled by the sequence of values sent on them, in sending order.
-/

namespace Sitemapper

/-! ## Data model -/

/-- The `edge` struct: a link from page `source` to page `dest`. -/
structure edge where
  source : String
  dest : String
deriving DecidableEq

/-! ## `strings.Replace` -/

/-- The replacement budget left after one replacement; `none` stands for "no limit"
(a negative `n` in Go). -/
def decLimit : Option Nat → Option Nat
  | none => none
  | some k => some (k - 1)

/-- The loop of `strings.Replace` for a non-empty `old`: scan `s` from the left, replace each
occurrence of `old` found at the current position by `new` and resume after it (so the
occurrences replaced do not overlap).  `skip` counts the characters of an occurrence just
replaced that are still to be passed over; `lim` is the number of replacements left. -/
def replaceNonEmpty (old new : List Char) : List Char → Option Nat → Nat → List Char
  | [], _, _ => []
  | c :: cs, lim, skip =>
    if skip ≠ 0 then replaceNonEmpty old new cs lim (skip - 1)
    else if lim = some 0 then c :: cs
    else if old.isPrefixOf (c :: cs) then
      new ++ replaceNonEmpty old new cs (decLimit lim) (old.length - 1)
    else c :: replaceNonEmpty old new cs lim 0

/-- The loop of `strings.Replace` for an empty `old`: it matches at the beginning of the string
and after each character. -/
def replaceEmpty (new : List Char) : List Char → Option Nat → List Char
  | [], lim => if lim = some 0 then [] else new
  | c :: cs, lim =>
    if lim = some 0 then c :: cs
    else new ++ c :: replaceEmpty new cs (decLimit lim)

/-- Go's `strings.Replace(s, old, new, n)`: a copy of `s` with the first `n` non-overlapping
instances of `old` replaced by `new`; no limit when `n < 0`. -/
def stringsReplace (s old new : String) (n : Int) : String :=
  if old = new ∨ n = 0 then s
  else
    let lim : Option Nat := if n < 0 then none else some n.toNat
    if old.data = [] then ⟨replaceEmpty new.data s.data lim⟩
    else ⟨replaceNonEmpty old.data new.data s.data lim 0⟩

/-- Substring test on character sequences: `b` occurs somewhere in `s`. -/
def containsSub (s b : String) : Prop := b.data <:+: s.data

instance (s b : String) : Decidable (containsSub s b) := by
  unfold containsSub; infer_instance

/-! ## `parseFlags` -/

/-- The function `parseFlags`, as a function of `flag.Args()`, the positional arguments left
after flag parsing.  The result is `(baseUrl, outputPath, err)`; `err = none` is Go's `nil`. -/
def parseFlags (args : List String) : String × String × Option String :=
  if args.length ≠ 2 then
    ("", "", some "invalid number of arguments")
  else
    (args.getD 0 "", args.getD 1 "", none)

/-! ## `generateGraphDotDefinition` -/

/-- The call `fmt.Sprintf("\t\"%s\" -> \"%s\";\n", source, dest)`: the verb `%s` copies a string
operand as it is. -/
def sprintfEdgeLine (source dest : String) : String :=
  "\t\"" ++ source ++ "\" -> \"" ++ dest ++ "\";\n"

/-- The function `generateGraphDotDefinition`: the string builder receives the header, one
formatted line per edge (the `for ... range edges` loop), and the closing brace. -/
def generateGraphDotDefinition (edges : List edge) : String :=
  let sb := "digraph Sitemap \x7b\n"
  let sb := edges.foldl (fun sb e => sb ++ sprintfEdgeLine e.source e.dest) sb
  sb ++ "\x7d"

/-! ## The link pattern, `getUrlContents`, `getAllLinksInUrl` -/

/-- The class `\w` of Go regular expressions: `[0-9A-Za-z_]`. -/
def isWordChar (c : Char) : Bool := c.isAlphanum || c == '_'

/-- The character class of `linkRegex`: a word character, a slash or a hyphen. -/
def isLinkChar (c : Char) : Bool := isWordChar c || c == '/' || c == '-'

/-- A match of `linkRegex` (the text `href="`, a group of one or more class characters, a
closing quote), anchored at the start of `s`: the
text of the capture group when there is a match.  The closing quote is not in the class, so the
group can only be the longest run of class characters after `href="`. -/
def matchLinkAt (s : List Char) : Option (List Char) :=
  if "href=\"".data.isPrefixOf s then
    let rest := s.drop 6
    let group := rest.takeWhile isLinkChar
    if group ≠ [] ∧ (rest.drop group.length).head? = some '"' then some group else none
  else none

/-- The capture groups `linkMatch[1]` of `linkRegex.FindAllStringSubmatch(s, -1)`: all successive
non-overlapping matches, leftmost first.  `skip` counts the characters of the last match still to
be passed over. -/
def findAllLinkSubmatch : List Char → Nat → List String
  | [], _ => []
  | c :: cs, skip =>
    if skip ≠ 0 then findAllLinkSubmatch cs (skip - 1)
    else
      match matchLinkAt (c :: cs) with
      | some group => String.mk group :: findAllLinkSubmatch cs (6 + group.length)
      | none => findAllLinkSubmatch cs 0

/-- What `http.Get` hands back when it returns no error: the status code and the bytes the body
reader delivers. -/
structure Response where
  statusCode : Nat
  body : String

/-- The network, as seen through `http.Get`: an error (failure to speak HTTP, such as a
connection problem) or a response.  A non-2xx status code is a response, not an error. -/
abbrev HttpGet := String → Except String Response

/-- The function `getUrlContents`: the error of `http.Get` when there is one, and the whole body
of the response otherwise.  The status code is not looked at. -/
def getUrlContents (httpGet : HttpGet) (url : String) : Except String String :=
  match httpGet url with
  | .error err => .error err
  | .ok resp => .ok resp.body

/-- The function `getAllLinksInUrl`: no links when `getUrlContents` fails, otherwise the first
capture group of every match of `linkRegex` in the document. -/
def getAllLinksInUrl (httpGet : HttpGet) (url : String) : List String :=
  match getUrlContents httpGet url with
  | .error _ => []
  | .ok urlContents => findAllLinkSubmatch urlContents.data 0

/-! ## `parsePageRoutine` -/

/-- The function `parsePageRoutine`, run by one worker over the work items `workChannel` it
receives (in order) until the channel is closed: the result is the sequence of edges it sends on
`resultChannel`, oldest first. -/
def parsePageRoutine (httpGet : HttpGet) (workChannel : List String) : List edge :=
  workChannel.foldl
    (fun sent url =>
      (getAllLinksInUrl httpGet url).foldl (fun sent page => sent ++ [edge.mk url page]) sent)
    []

/-! ## The coordinator of `startSiteMapBuilderCoordinator` -/

/-- The state of the coordinator goroutine: the set `pages` (the keys of the Go map), the slice
`siteMap`, and the work items it has sent on `workChannel` so far, oldest first. -/
structure Coordinator where
  pages : List String
  siteMap : List edge
  workChannel : List String

/-- The state when the `for`/`select` loop is entered: `pages` holds `"/"`, `siteMap` is empty and
`baseUrl + "/"` has been sent. -/
def Coordinator.start (baseUrl : String) : Coordinator :=
  { pages := ["/"], siteMap := [], workChannel := [baseUrl ++ "/"] }

/-- The branch `case e := <-edgeChannel` of the `select`: one edge is consumed.  The edge is
appended to `siteMap` with the base URL removed from its source; when its destination is not in
`pages` yet, the destination is added and `baseUrl + e.dest` is sent on `workChannel`.  (A send
on the full channel waits for a worker to receive; the coordinator does nothing else meanwhile,
so the sends it performs are these, in this order.) -/
def Coordinator.receive (baseUrl : String) (c : Coordinator) (e : edge) : Coordinator :=
  let siteMap := c.siteMap ++ [edge.mk (stringsReplace e.source baseUrl "" (-1)) e.dest]
  if e.dest ∈ c.pages then
    { c with siteMap := siteMap }
  else
    { pages := e.dest :: c.pages
      siteMap := siteMap
      workChannel := c.workChannel ++ [baseUrl ++ e.dest] }

/-- The coordinator after it has consumed the edges `es`, in this order. -/
def Coordinator.run (baseUrl : String) (es : List edge) : Coordinator :=
  es.foldl (Coordinator.receive baseUrl) (Coordinator.start baseUrl)

/-- The function `startSiteMapBuilderCoordinator` for a run in which the edges `es` arrive on
`edgeChannel` and then the idle timeout fires: the work items sent on `workChannel` before it is
closed, and the edge list sent on `resultChannel`. -/
def startSiteMapBuilderCoordinator (baseUrl : String) (es : List edge) :
    List String × List edge :=
  let c := Coordinator.run baseUrl es
  (c.workChannel, c.siteMap)

/-! ## Wording of the specification -/

/-- The first occurrences of a sequence: every element is kept where it first occurs and its
later copies are dropped. -/
def firstOccurrences : List String → List String
  | [] => []
  | d :: ds => d :: (firstOccurrences ds).filter (fun x => x ≠ d)

/-- The text the specification gives for the DOT file: the header, one line per edge, the closing
brace. -/
def dotText (es : List edge) : String :=
  "digraph Sitemap \x7b\n" ++
    String.join (es.map fun e => "\t" ++ "\"" ++ e.source ++ "\"" ++ " -> " ++ "\"" ++ e.dest ++ "\""
      ++ ";\n") ++ "\x7d"

/-- A fetch that fails in the sense of the specification: a network or connection error, or a
response whose status is not a success status (2xx). -/
def fetchFails (r : Except String Response) : Prop :=
  match r with
  | .error _ => True
  | .ok resp => ¬ (200 ≤ resp.statusCode ∧ resp.statusCode < 300)

instance (r : Except String Response) : Decidable (fetchFails r) := by
  unfold fetchFails; split <;> infer_instance

/-- A network in which every URL is answered by a 404 page whose body has a link. -/
def notFoundWithLink : HttpGet :=
  fun _ => .ok { statusCode := 404, body := "<a href=\"/some-page\">\n" }

/-- The network of the tests: the test server answers every request with `testUrlContent` and a
line feed (status 200); any other host cannot be reached. -/
def testServer (testUrl : String) : HttpGet :=
  fun url =>
    if testUrl.data <+: url.data then .ok { statusCode := 200, body := "<a href=\"/some-page\">\n" }
    else .error "no such host"

/-- Go's `strings.Join(elems, sep)`: the elements in order, with `sep` between two neighbours. -/
def stringsJoin : List String → String → String
  | [], _ => ""
  | [p], _ => p
  | p :: q :: ps, sep => p ++ sep ++ stringsJoin (q :: ps) sep

/-- The same on character sequences. -/
def joinChars (sep : List Char) : List (List Char) → List Char
  | [] => []
  | [p] => p
  | p :: q :: ps => p ++ sep ++ joinChars sep (q :: ps)

/-! ## Lemmas on `strings.Replace` -/

theorem replaceNonEmpty_skip (old new : List Char) (xs p : List Char) (lim : Option Nat) :
    replaceNonEmpty old new (xs ++ p) lim xs.length = replaceNonEmpty old new p lim 0 := by
  induction xs with
  | nil => simp
  | cons x xs ih => simp [replaceNonEmpty, ih]

theorem replaceNonEmpty_prefix (old new p : List Char) (h : old ≠ []) :
    replaceNonEmpty old new (old ++ p) none 0 = new ++ replaceNonEmpty old new p none 0 := by
  cases old with
  | nil => exact absurd rfl h
  | cons o os =>
    have := replaceNonEmpty_skip (o :: os) new os p none
    simp [replaceNonEmpty, decLimit, this]

theorem replaceNonEmpty_free (old p : List Char) (h : ¬ old <:+: p) :
    replaceNonEmpty old [] p none 0 = p := by
  induction p with
  | nil => simp [replaceNonEmpty]
  | cons c cs ih =>
    have h1 : ¬ old <+: c :: cs := fun hp => h hp.isInfix
    have h2 : ¬ old <:+: cs := fun hi => h (List.infix_cons hi)
    simp [replaceNonEmpty, h1, ih h2]

/-- Removing the base URL from a work item `b ++ p`: the prefix goes, and the pass goes on
through `p`. -/
theorem stringsReplace_workItem (b p : String) (hb : b ≠ "") :
    stringsReplace (b ++ p) b "" (-1) = ⟨replaceNonEmpty b.data [] p.data none 0⟩ := by
  have hd : b.data ≠ [] := fun h => hb (String.ext h)
  simp [stringsReplace, hb, hd, replaceNonEmpty_prefix]

theorem stringsReplace_free (b s : String) (h : ¬ containsSub s b) :
    stringsReplace s b "" (-1) = s := by
  have hd : b.data ≠ [] := by
    intro h0; apply h; unfold containsSub; rw [h0]; exact List.nil_infix
  have hb : b ≠ "" := fun h0 => hd (by rw [h0])
  simp [stringsReplace, hb, hd, replaceNonEmpty_free _ _ h]

theorem stringsReplace_empty (s : String) : stringsReplace s "" "" (-1) = s := by
  simp [stringsReplace]

theorem prefix_joinChars (sep p : List Char) (ps : List (List Char)) :
    p <+: joinChars sep (p :: ps) := by
  cases ps with
  | nil => exact List.prefix_refl p
  | cons q qs =>
    simp only [joinChars, List.append_assoc]
    exact List.prefix_append _ _

/-- One pass of the removal cuts the text into pieces: the text is the pieces with `old` between
them, no piece contains `old`, and the result is the pieces put together. -/
theorem replaceNonEmpty_pieces (old : List Char) (h : old ≠ []) (n : Nat) :
    ∀ l : List Char, l.length ≤ n →
      ∃ pieces : List (List Char), pieces ≠ [] ∧ l = joinChars old pieces ∧
        (∀ p ∈ pieces, ¬ old <:+: p) ∧
        replaceNonEmpty old [] l none 0 = joinChars [] pieces := by
  have hnil : ¬ old <:+: [] := fun hi => h (List.infix_nil.mp hi)
  induction n with
  | zero =>
    intro l hl
    have : l = [] := List.length_eq_zero.mp (Nat.le_zero.mp hl)
    subst this
    exact ⟨[[]], by simp, by simp [joinChars], by simpa using hnil,
      by simp [replaceNonEmpty, joinChars]⟩
  | succ n ih =>
    intro l hl
    cases l with
    | nil =>
      exact ⟨[[]], by simp, by simp [joinChars], by simpa using hnil,
        by simp [replaceNonEmpty, joinChars]⟩
    | cons c cs =>
      by_cases hp : old <+: c :: cs
      · obtain ⟨t, ht⟩ := hp
        have hlen : t.length ≤ n := by
          have h1 : (old ++ t).length = (c :: cs).length := by rw [ht]
          have h2 : 0 < old.length := List.length_pos.mpr h
          simp only [List.length_append, List.length_cons] at h1 hl
          omega
        obtain ⟨pieces, hne, hj, hfree, hrep⟩ := ih t hlen
        cases pieces with
        | nil => exact absurd rfl hne
        | cons q qs =>
          refine ⟨[] :: q :: qs, by simp, ?_, ?_, ?_⟩
          · rw [← ht, hj]; simp [joinChars]
          · intro p hmem
            rcases List.mem_cons.mp hmem with rfl | hmem
            · exact hnil
            · exact hfree p hmem
          · rw [← ht, replaceNonEmpty_prefix old [] t h, hrep]; simp [joinChars]
      · have hlen : cs.length ≤ n := by
          simp only [List.length_cons] at hl
          omega
        obtain ⟨pieces, hne, hj, hfree, hrep⟩ := ih cs hlen
        cases pieces with
        | nil => exact absurd rfl hne
        | cons q qs =>
          refine ⟨(c :: q) :: qs, by simp, ?_, ?_, ?_⟩
          · rw [hj]; cases qs <;> simp [joinChars]
          · intro p hmem
            rcases List.mem_cons.mp hmem with rfl | hmem
            · intro hin
              rcases List.infix_cons_iff.mp hin with hpre | hin2
              · apply hp
                have hq : q <+: cs := hj ▸ prefix_joinChars old q qs
                exact hpre.trans ((List.prefix_cons_inj c).mpr hq)
              · exact hfree q (List.mem_cons_self _ _) hin2
            · exact hfree p (List.mem_cons_of_mem _ hmem)
          · have hstep : replaceNonEmpty old [] (c :: cs) none 0
                = c :: replaceNonEmpty old [] cs none 0 := by
              simp [replaceNonEmpty, hp]
            rw [hstep, hrep]; cases qs <;> simp [joinChars]

theorem stringsJoin_mk (sep : String) (pieces : List (List Char)) :
    stringsJoin (pieces.map String.mk) sep = String.mk (joinChars sep.data pieces) := by
  induction pieces with
  | nil => rfl
  | cons p ps ih =>
    cases ps with
    | nil => rfl
    | cons q qs =>
      simp only [List.map_cons, stringsJoin, joinChars] at ih ⊢
      rw [ih]
      apply String.ext
      simp [String.data_append]

/-- The result of removing a non-empty base URL from any string, by pieces. -/
theorem stringsReplace_pieces (b s : String) (hb : b ≠ "") :
    ∃ pieces : List String, s = stringsJoin pieces b ∧
      (∀ p ∈ pieces, ¬ containsSub p b) ∧
      stringsReplace s b "" (-1) = stringsJoin pieces "" := by
  have hd : b.data ≠ [] := fun h => hb (String.ext h)
  obtain ⟨pieces, -, hj, hfree, hrep⟩ :=
    replaceNonEmpty_pieces b.data hd s.data.length s.data (Nat.le_refl _)
  refine ⟨pieces.map String.mk, ?_, ?_, ?_⟩
  · rw [stringsJoin_mk, ← hj]
  · intro p hmem
    obtain ⟨l, hl, rfl⟩ := List.mem_map.mp hmem
    exact hfree l hl
  · rw [stringsJoin_mk]
    simp [stringsReplace, hb, hd, hrep]

/-! ## Lemmas on the coordinator -/

theorem receive_siteMap (b : String) (c : Coordinator) (e : edge) :
    (Coordinator.receive b c e).siteMap
      = c.siteMap ++ [edge.mk (stringsReplace e.source b "" (-1)) e.dest] := by
  unfold Coordinator.receive
  split <;> rfl

theorem foldl_receive_siteMap (b : String) (es : List edge) (c : Coordinator) :
    (es.foldl (Coordinator.receive b) c).siteMap
      = c.siteMap ++ es.map (fun e => edge.mk (stringsReplace e.source b "" (-1)) e.dest) := by
  induction es generalizing c with
  | nil => simp
  | cons e es ih => simp [ih, receive_siteMap]

theorem foldl_receive_workChannel (b : String) (es : List edge) (c : Coordinator) :
    (es.foldl (Coordinator.receive b) c).workChannel
      = c.workChannel ++
          ((firstOccurrences (es.map edge.dest)).filter (fun d => decide (d ∉ c.pages))).map
            (fun d => b ++ d) := by
  induction es generalizing c with
  | nil => simp [firstOccurrences]
  | cons e es ih =>
    rw [List.foldl_cons, ih]
    by_cases h : e.dest ∈ c.pages
    · simp only [Coordinator.receive, h, if_true, firstOccurrences, List.map_cons,
        List.filter_cons, decide_not, decide_True, Bool.not_true, Bool.false_eq_true,
        if_false, List.filter_filter]
      congr 2
      apply List.filter_congr
      intro x _
      by_cases hx : x ∈ c.pages
      · simp [hx]
      · have : x ≠ e.dest := fun h0 => hx (h0 ▸ h)
        simp [hx, this]
    · simp only [Coordinator.receive, h, if_false, firstOccurrences, List.map_cons,
        List.filter_cons, decide_not, decide_False, Bool.not_false, if_true,
        List.filter_filter, List.append_assoc, List.singleton_append]
      congr 3
      apply List.filter_congr
      intro x _
      by_cases hx : x ∈ c.pages <;> by_cases hx2 : x = e.dest <;> simp [hx, hx2]

theorem foldl_receive_invariant (b : String) (es : List edge) (c : Coordinator)
    (hn : c.pages.Nodup) (hw : c.workChannel = c.pages.reverse.map (fun p => b ++ p)) :
    (es.foldl (Coordinator.receive b) c).pages.Nodup ∧
      (es.foldl (Coordinator.receive b) c).workChannel
        = (es.foldl (Coordinator.receive b) c).pages.reverse.map (fun p => b ++ p) := by
  induction es generalizing c with
  | nil => exact ⟨hn, hw⟩
  | cons e es ih =>
    rw [List.foldl_cons]
    apply ih
    · unfold Coordinator.receive
      split
      · exact hn
      · rename_i h
        exact List.nodup_cons.mpr ⟨h, hn⟩
    · unfold Coordinator.receive
      split
      · exact hw
      · simp [hw]

theorem string_append_left_injective (b : String) :
    Function.Injective (fun p : String => b ++ p) := by
  intro p q h
  have := congrArg String.data h
  simp only [String.data_append] at this
  exact String.ext (List.append_cancel_left this)

theorem run_siteMap (b : String) (es : List edge) :
    (startSiteMapBuilderCoordinator b es).2
      = es.map (fun e => edge.mk (stringsReplace e.source b "" (-1)) e.dest) := by
  simp [startSiteMapBuilderCoordinator, Coordinator.run, foldl_receive_siteMap,
    Coordinator.start]

/-! ## The coordinator: work items and edge list -/

/-- C1: dedup invariant of the coordinator.  Whatever edges the coordinator consumes, the work
items it sends are `baseUrl ++ p` for a sequence of page identifiers `p` without repetition (the
pre-seeded root included), so no work item is sent twice. -/
theorem coordinator_enqueues_each_page_once (baseUrl : String) (es : List edge) :
    (∃ ps : List String, ps.Nodup ∧ "/" ∈ ps ∧
        (startSiteMapBuilderCoordinator baseUrl es).1 = ps.map (fun p => baseUrl ++ p)) ∧
      ∀ p : String, (startSiteMapBuilderCoordinator baseUrl es).1.count (baseUrl ++ p) ≤ 1 := by
  have hinv := foldl_receive_invariant baseUrl es (Coordinator.start baseUrl)
    (by simp [Coordinator.start]) (by simp [Coordinator.start])
  have hex : ∃ ps : List String, ps.Nodup ∧ "/" ∈ ps ∧
      (startSiteMapBuilderCoordinator baseUrl es).1 = ps.map (fun p => baseUrl ++ p) := by
    refine ⟨(Coordinator.run baseUrl es).pages.reverse, List.nodup_reverse.mpr hinv.1, ?_,
      hinv.2⟩
    have hmem : ∀ (l : List edge) (c : Coordinator), "/" ∈ c.pages →
        "/" ∈ (l.foldl (Coordinator.receive baseUrl) c).pages := by
      intro l
      induction l with
      | nil => intro c h; exact h
      | cons e l ih =>
        intro c h
        apply ih
        unfold Coordinator.receive
        split
        · exact h
        · exact List.mem_cons_of_mem _ h
    exact List.mem_reverse.mpr (hmem es _ (by simp [Coordinator.start]))
  refine ⟨hex, fun p => ?_⟩
  obtain ⟨ps, hnd, -, hps⟩ := hex
  rw [hps]
  exact List.nodup_iff_count_le_one.mp
    (hnd.map (string_append_left_injective baseUrl)) _

/-- C2: the work items of a run.  After consuming the edges `es` the coordinator has sent, in
this order, `baseUrl ++ "/"` and then `baseUrl ++ d` for every destination `d` other than `"/"`,
at the place of its first occurrence among the destinations; for the three edges of
`TestCoordinatorRoutine` these are the three expected work units. -/
theorem coordinator_work_items (baseUrl : String) (es : List edge) :
    (startSiteMapBuilderCoordinator baseUrl es).1
        = (baseUrl ++ "/") ::
            ((firstOccurrences (es.map edge.dest)).filter (fun d => d ≠ "/")).map
              (fun d => baseUrl ++ d) ∧
      (startSiteMapBuilderCoordinator "https://some.url"
          [edge.mk "https://some.url/" "/page", edge.mk "https://some.url/page" "/page2",
            edge.mk "https://some.url/page2" "/"]).1
        = ["https://some.url/", "https://some.url/page", "https://some.url/page2"] := by
  refine ⟨?_, by decide⟩
  simp only [startSiteMapBuilderCoordinator, Coordinator.run, foldl_receive_workChannel,
    Coordinator.start, List.singleton_append]
  congr 2
  apply List.filter_congr
  intro x _
  simp

/-- C3: the edge list is append-only and in consumption order.  After consuming `n` edges the
list returned has `n` edges, and its `i`-th edge has the destination of the `i`-th consumed
edge; edges are not deduplicated. -/
theorem coordinator_edge_list (baseUrl : String) (es : List edge) :
    (startSiteMapBuilderCoordinator baseUrl es).2.length = es.length ∧
      (∀ i : Nat, ((startSiteMapBuilderCoordinator baseUrl es).2[i]?).map edge.dest
          = (es[i]?).map edge.dest) ∧
      (startSiteMapBuilderCoordinator "https://some.url"
          [edge.mk "https://some.url/" "/page", edge.mk "https://some.url/" "/page",
            edge.mk "https://some.url/page" "/"]).2
        = [edge.mk "/" "/page", edge.mk "/" "/page", edge.mk "/page" "/"] := by
  refine ⟨by simp [run_siteMap], fun i => ?_, by decide⟩
  rw [run_siteMap, List.getElem?_map]
  cases es[i]? <;> rfl

/-! ## The coordinator: the recorded source -/

/-- C4, as stated, fails: with base URL `https://some.url`, the source
`https://somehttps://some.url.url/page` is recorded as `https://some.url/page`, which starts with
the base URL (removing one occurrence joins the text around it into a new one). -/
theorem recorded_source_contains_base :
    (startSiteMapBuilderCoordinator "https://some.url"
        [edge.mk "https://somehttps://some.url.url/page" "/page"]).2
      = [edge.mk "https://some.url/page" "/page"] ∧
    containsSub "https://some.url/page" "https://some.url" ∧
    "https://some.url".data <+: "https://some.url/page".data := by
  decide

/-- C4, amended: for a non-empty base URL `b` and an edge consumed by the coordinator with any
source string, the source is `p0 ++ b ++ p1 ++ ... ++ b ++ pk` for pieces `p0, ..., pk` none of
which contains `b`, and the source recorded in the edge list is `p0 ++ p1 ++ ... ++ pk`: the
occurrences of `b` are cut out, and `b` can occur in the recorded source only across a place
where an occurrence was cut out, never inside a piece. -/
theorem recorded_source_cuts_base (b : String) (es : List edge) (i : Nat) (e : edge)
    (hb : b ≠ "") (hi : es[i]? = some e) :
    ∃ pieces : List String,
      e.source = stringsJoin pieces b ∧
      (∀ p ∈ pieces, ¬ containsSub p b) ∧
      (startSiteMapBuilderCoordinator b es).2[i]?
        = some (edge.mk (stringsJoin pieces "") e.dest) := by
  obtain ⟨pieces, hsrc, hfree, hrep⟩ := stringsReplace_pieces b e.source hb
  refine ⟨pieces, hsrc, hfree, ?_⟩
  rw [run_siteMap, List.getElem?_map, hi, Option.map_some', hrep]

theorem recorded_source_cuts_base_witness :
    ("https://some.url" ≠ "" ∧
      [edge.mk "/redirhttps://some.url/x" "/x"][0]?
        = some (edge.mk "/redirhttps://some.url/x" "/x")) ∧
    ∃ pieces : List String,
      (edge.mk "/redirhttps://some.url/x" "/x").source = stringsJoin pieces "https://some.url" ∧
      (∀ p ∈ pieces, ¬ containsSub p "https://some.url") ∧
      (startSiteMapBuilderCoordinator "https://some.url"
          [edge.mk "/redirhttps://some.url/x" "/x"]).2[0]?
        = some (edge.mk (stringsJoin pieces "")
            (edge.mk "/redirhttps://some.url/x" "/x").dest) :=
  ⟨⟨by decide, rfl⟩,
    recorded_source_cuts_base "https://some.url" [edge.mk "/redirhttps://some.url/x" "/x"] 0
      (edge.mk "/redirhttps://some.url/x" "/x") (by decide) rfl⟩

/-- Instances of the cut: one occurrence inside the source, two leading occurrences, and pieces
that join into a new occurrence. -/
theorem recorded_source_cut_examples :
    stringsReplace "/redirhttps://some.url/x" "https://some.url" "" (-1) = "/redir/x" ∧
      "/redirhttps://some.url/x" = stringsJoin ["/redir", "/x"] "https://some.url" ∧
      stringsJoin ["/redir", "/x"] "" = "/redir/x" ∧
      ¬ containsSub "/redir/x" "https://some.url" ∧
      stringsReplace "https://some.urlhttps://some.url/p" "https://some.url" "" (-1) = "/p" ∧
      "https://some.urlhttps://some.url/p" = stringsJoin ["", "", "/p"] "https://some.url" ∧
      stringsReplace "https://somehttps://some.url.url/page" "https://some.url" "" (-1)
        = stringsJoin ["https://some", ".url/page"] "" ∧
      "https://somehttps://some.url.url/page"
        = stringsJoin ["https://some", ".url/page"] "https://some.url" := by
  decide

/-- C10, as stated, fails: with base URL `https://some.url` and path
`/out/https://some.url/x`, the source `b ++ p` is recorded as `/out//x`, not as `p`. -/
theorem recorded_source_not_path :
    (startSiteMapBuilderCoordinator "https://some.url"
        [edge.mk ("https://some.url" ++ "/out/https://some.url/x") "/y"]).2
      = [edge.mk "/out//x" "/y"] ∧
    "/out//x" ≠ "/out/https://some.url/x" := by
  decide

/-- C10, amended: when the coordinator consumes, as its `i`-th edge, an edge whose source is the
work item `b ++ p`, and `p` does not contain `b` (or `b` is empty), the `i`-th edge of the edge
list has source exactly `p` and the destination unchanged. -/
theorem recorded_source_strips_base (b p : String) (es : List edge) (i : Nat) (e : edge)
    (hi : es[i]? = some e) (hs : e.source = b ++ p) (hp : b = "" ∨ ¬ containsSub p b) :
    (startSiteMapBuilderCoordinator b es).2[i]? = some (edge.mk p e.dest) := by
  rw [run_siteMap, List.getElem?_map, hi, Option.map_some', hs]
  congr 2
  rcases hp with rfl | hp
  · rw [stringsReplace_empty]
    exact String.ext (by simp)
  · have hb : b ≠ "" := by
      rintro rfl
      exact hp List.nil_infix
    rw [stringsReplace_workItem b p hb, replaceNonEmpty_free _ _ hp]

theorem recorded_source_strips_base_witness :
    ([edge.mk "https://some.url/" "/page", edge.mk "https://some.url/page" "/page2",
        edge.mk "https://some.url/page2" "/"][1]?
        = some (edge.mk "https://some.url/page" "/page2") ∧
      (edge.mk "https://some.url/page" "/page2").source = "https://some.url" ++ "/page" ∧
      ("https://some.url" = "" ∨ ¬ containsSub "/page" "https://some.url")) ∧
    (startSiteMapBuilderCoordinator "https://some.url"
        [edge.mk "https://some.url/" "/page", edge.mk "https://some.url/page" "/page2",
          edge.mk "https://some.url/page2" "/"]).2[1]?
      = some (edge.mk "/page" "/page2") :=
  ⟨⟨rfl, by decide, Or.inr (by decide)⟩,
    recorded_source_strips_base "https://some.url" "/page" _ 1
      (edge.mk "https://some.url/page" "/page2") rfl (by decide) (Or.inr (by decide))⟩

/-! ## Serialisation, worker, fetch, arguments -/

theorem foldl_append_lines (f : edge → String) (es : List edge) (init : String) :
    es.foldl (fun sb e => sb ++ f e) init = init ++ String.join (es.map f) := by
  induction es generalizing init with
  | nil => simp [String.join]
  | cons e es ih =>
    have hj : ∀ (l : List String) (a : String),
        l.foldl (fun r s => r ++ s) a = a ++ l.foldl (fun r s => r ++ s) "" := by
      intro l
      induction l with
      | nil => intro a; simp
      | cons x l ihl =>
        intro a
        rw [List.foldl_cons, ihl, List.foldl_cons, ihl ("" ++ x)]
        simp [String.append_assoc]
    rw [List.foldl_cons, ih, List.map_cons]
    unfold String.join
    rw [List.foldl_cons, hj _ ("" ++ f e)]
    simp [String.append_assoc]

/-- C5: the DOT text.  `generateGraphDotDefinition` returns the header line, then one line
`TAB "source" -> "dest";` per edge in list order with both strings copied as they are, then the
closing brace; the empty list gives the header and the brace, and the two edges of
`TestGenerateGraphDotDefinition` give the three-line text expected there. -/
theorem generateGraphDotDefinition_format (es : List edge) :
    generateGraphDotDefinition es = dotText es ∧
      generateGraphDotDefinition [] = "digraph Sitemap \x7b\n\x7d" ∧
      generateGraphDotDefinition [edge.mk "a" "b", edge.mk "b" "c"]
        = "digraph Sitemap \x7b\n\t\"a\" -> \"b\";\n\t\"b\" -> \"c\";\n\x7d" := by
  refine ⟨?_, by decide, by decide⟩
  unfold generateGraphDotDefinition dotText
  simp only [foldl_append_lines]
  congr 3
  apply List.map_congr_left
  intro e _
  apply String.ext
  simp [sprintfEdgeLine, String.data_append]

theorem foldl_emit (url : String) (links : List String) (sent : List edge) :
    links.foldl (fun sent page => sent ++ [edge.mk url page]) sent
      = sent ++ links.map (fun page => edge.mk url page) := by
  induction links generalizing sent with
  | nil => simp
  | cons l links ih => simp [ih]

theorem foldl_worker (httpGet : HttpGet) (urls : List String) (sent : List edge) :
    urls.foldl
        (fun sent url =>
          (getAllLinksInUrl httpGet url).foldl (fun sent page => sent ++ [edge.mk url page])
            sent) sent
      = sent ++ (urls.map fun u =>
          (getAllLinksInUrl httpGet u).map (fun page => edge.mk u page)).flatten := by
  induction urls generalizing sent with
  | nil => simp
  | cons u urls ih => rw [List.foldl_cons, ih, foldl_emit]; simp

/-- C6: the output of a fetch worker.  For a queue holding the single URL `u` the worker emits
the edges `(u, l)` for the links `l` that `getAllLinksInUrl` returns for `u`, in that order and
nothing else; for a queue `urls` it emits the concatenation of these sequences in queue order;
and the page of the test server, fetched at `testUrl`, gives the edge
`(testUrl, "/some-page")`. -/
theorem parsePageRoutine_output (httpGet : HttpGet) (u testUrl : String) (urls : List String) :
    parsePageRoutine httpGet [u]
        = (getAllLinksInUrl httpGet u).map (fun l => edge.mk u l) ∧
      parsePageRoutine httpGet urls
        = (urls.map fun v => (getAllLinksInUrl httpGet v).map (fun l => edge.mk v l)).flatten ∧
      parsePageRoutine (testServer testUrl) [testUrl] = [edge.mk testUrl "/some-page"] := by
  refine ⟨?_, ?_, ?_⟩
  · simp [parsePageRoutine, foldl_emit]
  · simp [parsePageRoutine, foldl_worker]
  · have hl : getAllLinksInUrl (testServer testUrl) testUrl = ["/some-page"] := by
      simp only [getAllLinksInUrl, getUrlContents, testServer, List.prefix_refl, if_true]
      decide
    simp [parsePageRoutine, hl]

/-- C7, as stated, fails: a response with status 404 (not a success status) whose body holds a
link is scanned like any other, and `getAllLinksInUrl` returns the link. -/
theorem getAllLinksInUrl_ignores_status :
    fetchFails (notFoundWithLink "https://some.url/gone") ∧
      getAllLinksInUrl notFoundWithLink "https://some.url/gone" = ["/some-page"] ∧
      parsePageRoutine notFoundWithLink ["https://some.url/gone"]
        = [edge.mk "https://some.url/gone" "/some-page"] := by
  decide

/-- C7, amended: for every URL, `getAllLinksInUrl` returns the empty list whenever `http.Get`
returns an error (a network or connection error), and such a URL contributes no edge. -/
theorem getAllLinksInUrl_error (httpGet : HttpGet) (url err : String)
    (h : httpGet url = .error err) :
    getAllLinksInUrl httpGet url = [] ∧ parsePageRoutine httpGet [url] = [] := by
  have h1 : getAllLinksInUrl httpGet url = [] := by
    simp [getAllLinksInUrl, getUrlContents, h]
  exact ⟨h1, by simp [parsePageRoutine, h1]⟩

theorem getAllLinksInUrl_error_witness :
    testServer "http://127.0.0.1:8080" "https://really-should-not-exist.coffee"
        = .error "no such host" ∧
      getAllLinksInUrl (testServer "http://127.0.0.1:8080")
          "https://really-should-not-exist.coffee" = [] ∧
      parsePageRoutine (testServer "http://127.0.0.1:8080")
          ["https://really-should-not-exist.coffee"] = [] :=
  ⟨rfl, getAllLinksInUrl_error _ _ "no such host" rfl⟩

/-- C9: argument parsing.  `parseFlags` returns an error exactly when the number of positional
arguments is not 2, and then both strings are empty; with two arguments it returns them as base
URL and output path, without error. -/
theorem parseFlags_arguments (args : List String) (a b : String) :
    ((parseFlags args).2.2 ≠ none ↔ args.length ≠ 2) ∧
      ((parseFlags args).2.2 ≠ none →
        (parseFlags args).1 = "" ∧ (parseFlags args).2.1 = "") ∧
      parseFlags [a, b] = (a, b, none) ∧
      parseFlags ["some-url", "output-path"] = ("some-url", "output-path", none) ∧
      (parseFlags ["some-url"]).2.2 ≠ none := by
  refine ⟨?_, ?_, by simp [parseFlags], by decide, by decide⟩
  · by_cases h : args.length = 2 <;> simp [parseFlags, h]
  · by_cases h : args.length = 2 <;> simp [parseFlags, h]

end Sitemapper
